import Mathlib

/-!
Verification of the purplerepo registry diff engine
(`.github/workflows/scripts/detect_repo_changes.py`) and the GitHub
enrichment worker (`workers/python-github-enrich/src/entry.py`), as a
shallow embedding in Lean 4.  Each Python function is translated into an
executable Lean definition; theorems below settle the specified
properties of those definitions.
-/

namespace PurpleRepo

/-- One entry of `repo-list.yaml`, the `RepoEntry` dataclass:
`repo_url : str`, `tags : Optional[List[str]]` (default `None`),
`contributor_name : str` (default `""`). -/
structure RepoEntry where
  repo_url : String
  tags : Option (List String) := none
  contributor_name : String := ""
deriving DecidableEq, Repr

/-- Python truthiness of the optional tag list (`if entry.tags:`):
`None` and the empty list are falsy. -/
def tagsTruthy : Option (List String) → Bool
  | none => false
  | some ts => ts ≠ []

/-- `dict.fromkeys` / insertion-ordered deduplication: keep the first
occurrence of each element, dropping later exact duplicates.  `seen`
accumulates the keys already emitted. -/
def dedupFirstAux (seen : List String) : List String → List String
  | [] => []
  | x :: xs =>
    if x ∈ seen then dedupFirstAux seen xs
    else x :: dedupFirstAux (x :: seen) xs

/-- `list(dict.fromkeys(l))`: deduplicate preserving first-occurrence
order. -/
def dedupFirst (l : List String) : List String :=
  dedupFirstAux [] l

/-- `RepoChangeDetector.find_new_entries`: the entries of `new_entries`
whose `repo_url` is not among the urls of `old_entries` (the Python
builds the set `old_urls` and filters by membership). -/
def find_new_entries (old_entries new_entries : List RepoEntry) : List RepoEntry :=
  let old_urls := old_entries.map (·.repo_url)
  new_entries.filter (fun e => ¬ old_urls.contains e.repo_url)

/-- `RepoChangeDetector.find_removed_entries`: the entries of
`old_entries` whose `repo_url` is not among the urls of `new_entries`. -/
def find_removed_entries (old_entries new_entries : List RepoEntry) : List RepoEntry :=
  let new_urls := new_entries.map (·.repo_url)
  old_entries.filter (fun e => ¬ new_urls.contains e.repo_url)

/-- One step of building the Python dict `url_groups`: append `e` to the
group of its url if that key exists, otherwise add a fresh key at the
end (dict insertion order). -/
def insertGroup (gs : List (String × List RepoEntry)) (e : RepoEntry) :
    List (String × List RepoEntry) :=
  match gs with
  | [] => [(e.repo_url, [e])]
  | (u, g) :: rest =>
    if u = e.repo_url then (u, g ++ [e]) :: rest
    else (u, g) :: insertGroup rest e

/-- The `url_groups` dict of `consolidate_entries_by_url`: group the
entries by url, keys in first-occurrence order, each group in input
order. -/
def groupByUrl (entries : List RepoEntry) : List (String × List RepoEntry) :=
  entries.foldl insertGroup []

/-- The per-group body of `consolidate_entries_by_url`: a singleton
group passes through unchanged; a larger group merges non-empty
contributor names (first-occurrence order, exact duplicates removed,
joined by `", "`) and takes the deduplicated union of all truthy tag
lists, `None` when that union is empty. -/
def consolidateGroup (repo_url : String) (group : List RepoEntry) : RepoEntry :=
  match group with
  | [e] => e
  | _ =>
    let contributors :=
      (group.filter (fun e => e.contributor_name ≠ "")).map (·.contributor_name)
    let unique_contributors := dedupFirst contributors
    let consolidated_contributor := String.intercalate ", " unique_contributors
    let all_tags :=
      group.foldl (fun acc e => if tagsTruthy e.tags then acc ++ e.tags.getD [] else acc) []
    let unique_tags := if all_tags = [] then none else some (dedupFirst all_tags)
    { repo_url := repo_url, tags := unique_tags,
      contributor_name := consolidated_contributor }

/-- `RepoChangeDetector.consolidate_entries_by_url`: group by url and
merge each group (the Python early-returns `[]` on an empty input). -/
def consolidate_entries_by_url (entries : List RepoEntry) : List RepoEntry :=
  if entries = [] then []
  else (groupByUrl entries).map (fun p => consolidateGroup p.1 p.2)

/-- `RepoChangeDetector.detect_action_conflicts`: urls present in both
lists are dropped from both; everything else is kept in place. -/
def detect_action_conflicts (new_repos removed_repos : List RepoEntry) :
    List RepoEntry × List RepoEntry :=
  let new_urls := new_repos.map (·.repo_url)
  let removed_urls := removed_repos.map (·.repo_url)
  let conflicting_urls := new_urls.filter (fun u => removed_urls.contains u)
  let filtered_new_repos :=
    new_repos.filter (fun e => ¬ conflicting_urls.contains e.repo_url)
  let filtered_removed_repos :=
    removed_repos.filter (fun e => ¬ conflicting_urls.contains e.repo_url)
  (filtered_new_repos, filtered_removed_repos)

/-- The JSON payload produced by `RepoEntry.to_dict`: keys `repo_url`,
`contributor_name`, `action`, and `tags` only when the tag list is
truthy. -/
structure Payload where
  repo_url : String
  contributor_name : String
  action : String
  tags : Option (List String)
deriving DecidableEq, Repr

/-- `RepoEntry.to_dict(action)`: the `tags` key is emitted only when
`self.tags` is truthy (non-`None` and non-empty). -/
def RepoEntry.to_dict (e : RepoEntry) (action : String) : Payload :=
  { repo_url := e.repo_url
    contributor_name := e.contributor_name
    action := action
    tags := if tagsTruthy e.tags then some (e.tags.getD []) else none }

/-- The `ValueError` raised by the change-limit gate of
`detect_changes`, carrying the actual consolidated change count and the
hard-coded threshold 15 (both appear in the raised message
`"Exceeded maximum change limit: {total_changes} > 15"`). -/
structure LimitExceeded where
  total_changes : Nat
  threshold : Nat
deriving DecidableEq, Repr

/-- The pure core of `RepoChangeDetector.detect_changes`, from the two
parsed entry lists onward (the git retrieval and YAML parsing prologue
is external I/O; it only supplies `old_entries` and `new_entries`):
diff, conflict-filter, consolidate, optionally enforce the 15-change
limit, and serialize add payloads followed by remove payloads. -/
def detect_changes_core (old_entries new_entries : List RepoEntry)
    (enforce_limits : Bool) : Except LimitExceeded (List Payload) :=
  let new_repos := find_new_entries old_entries new_entries
  let removed_repos := find_removed_entries old_entries new_entries
  if new_repos = [] ∧ removed_repos = [] then .ok []
  else
    let filtered := detect_action_conflicts new_repos removed_repos
    let consolidated_new_repos := consolidate_entries_by_url filtered.1
    let consolidated_removed_repos := consolidate_entries_by_url filtered.2
    if consolidated_new_repos = [] ∧ consolidated_removed_repos = [] then .ok []
    else
      let total_changes := consolidated_new_repos.length + consolidated_removed_repos.length
      if enforce_limits ∧ total_changes > 15 then
        .error { total_changes := total_changes, threshold := 15 }
      else
        .ok (consolidated_new_repos.map (fun r => r.to_dict "add") ++
             consolidated_removed_repos.map (fun r => r.to_dict "remove"))

/-- Model of the Python values produced by `yaml.safe_load` and
`request.json()`: null, booleans, integers, strings, lists and
string-keyed mappings (the only key shape the code ever queries). -/
inductive PyVal where
  | null
  | bool (b : Bool)
  | int (n : Int)
  | str (s : String)
  | list (items : List PyVal)
  | map (entries : List (String × PyVal))

/-- The Python exceptions the modelled code can raise. -/
inductive PyExn where
  | attributeError
  | typeError
deriving DecidableEq, Repr

/-- Dictionary key lookup (first binding wins; the values built by the
YAML/JSON loaders have unique keys). -/
def pyLookup : List (String × PyVal) → String → Option PyVal
  | [], _ => none
  | (k, v) :: rest, key => if k = key then some v else pyLookup rest key

/-- Python truthiness of a value (`if not github_url`, `tags or []`). -/
def PyVal.truthy : PyVal → Bool
  | .null => false
  | .bool b => b
  | .int n => n ≠ 0
  | .str s => s ≠ ""
  | .list items => !items.isEmpty
  | .map entries => !entries.isEmpty

/-- Whether the value is a dict (`isinstance(request_data, dict)`). -/
def PyVal.isMap : PyVal → Bool
  | .map _ => true
  | _ => false

/-- `value.get(key, default)`: succeeds only on a dict; any other
receiver raises `AttributeError`, exactly as in Python. -/
def PyVal.get (v : PyVal) (key : String) (default : PyVal) : Except PyExn PyVal :=
  match v with
  | .map entries => .ok ((pyLookup entries key).getD default)
  | _ => .error .attributeError

/-- Python iteration (`for repo in repos:`): lists yield their items,
strings their characters, dicts their keys; scalars raise `TypeError`. -/
def PyVal.iter : PyVal → Except PyExn (List PyVal)
  | .list items => .ok items
  | .str s => .ok (s.toList.map (fun c => .str (String.mk [c])))
  | .map entries => .ok (entries.map (fun kv => .str kv.1))
  | .null => .error .typeError
  | .bool _ => .error .typeError
  | .int _ => .error .typeError

/-- List concatenation `tags + initial_tags`: both operands must be
lists, otherwise `TypeError` (other Python `+` overloads, such as
string concatenation, lie outside the modelled fragment). -/
def PyVal.asPyList : PyVal → Except PyExn (List PyVal)
  | .list items => .ok items
  | _ => .error .typeError

/-- Canonical string form of a scalar, used where the source stores a
raw parsed value into a string-typed dataclass field; on the expected
string-valued inputs this is the identity. -/
def PyVal.render : PyVal → String
  | .str s => s
  | .null => "None"
  | .bool b => if b then "True" else "False"
  | .int n => toString n
  | .list _ => ""
  | .map _ => ""

/-- A tag element entering `set(tags + initial_tags)` must be hashable:
lists and dicts raise `TypeError`; scalars are kept by their canonical
string form. -/
def PyVal.hashableRender : PyVal → Except PyExn String
  | .list _ => .error .typeError
  | .map _ => .error .typeError
  | v => .ok v.render

/-- One iteration of the entry loop of `parse_yaml_content`: read and
normalize the two tag fields (`or []` coerces falsy values to the empty
list), merge and deduplicate them (`list(set(...))` has no specified
order in Python; the model fixes first-occurrence order), and build the
`RepoEntry`. -/
def parseRepoItem (repo : PyVal) : Except PyExn RepoEntry := do
  let tagsVal ← repo.get "tags" (.list [])
  let tagsVal := if tagsVal.truthy then tagsVal else .list []
  let initialTagsVal ← repo.get "initial_tags" (.list [])
  let initialTagsVal := if initialTagsVal.truthy then initialTagsVal else .list []
  let tags ← tagsVal.asPyList
  let initial_tags ← initialTagsVal.asPyList
  let merged ← (tags ++ initial_tags).mapM PyVal.hashableRender
  let all_tags :=
    if !tags.isEmpty || !initial_tags.isEmpty then some (dedupFirst merged) else none
  let urlVal ← repo.get "repo_url" (.str "")
  let contributorVal ← repo.get "contributor_name" (.str "")
  pure { repo_url := urlVal.render, tags := all_tags,
         contributor_name := contributorVal.render }

/-- `RepoChangeDetector.parse_yaml_content`, as a function of the
outcome of `yaml.safe_load` on the input text: a `yaml.YAMLError` from
the loader is caught and yields `[]`; any other exception raised inside
the `try` body (notably `AttributeError` from `data.get` when the
loaded document is not a dict) propagates to the caller. -/
def parse_yaml_content (loaded : Except Unit PyVal) : Except PyExn (List RepoEntry) :=
  match loaded with
  | .error _ => .ok []
  | .ok data => do
    let repos ← data.get "repos" (.list [])
    let items ← repos.iter
    items.foldlM (fun acc repo => do
      let entry ← parseRepoItem repo
      pure (acc ++ [entry])) []

/-- Characters of CPython's `scheme_chars`: letters, digits and
`+`, `-`, `.`. -/
def isSchemeChar (c : Char) : Bool :=
  c.isAlpha || c.isDigit || c = '+' || c = '-' || c = '.'

/-- The WHATWG C0-control-or-space class stripped from the front of the
url by `urlsplit` (codepoints `0x00`–`0x20`). -/
def isC0ControlOrSpace (c : Char) : Bool :=
  c.toNat ≤ 32

/-- Scheme removal in `urlsplit`: when the url has a `:` at position
`i > 0`, its first character is an ASCII letter and everything before
the `:` is a scheme character, drop the `scheme:` prefix. -/
def dropScheme (cs : List Char) : List Char :=
  match cs.findIdx? (fun c => c = ':') with
  | none => cs
  | some i =>
    if 0 < i ∧ (cs.take i).all isSchemeChar ∧ (cs.headD ' ').isAlpha then cs.drop (i + 1)
    else cs

/-- `_splitnetloc`: the netloc runs from position 2 up to the first of
`/`, `?`, `#`. -/
def netlocDelim (c : Char) : Bool :=
  c = '/' || c = '?' || c = '#'

/-- Python `str.split('/')` over the characters of the path: cut at
every `/`, keeping empty pieces (`acc` holds the current piece
reversed). -/
def splitSlashAux : List Char → List Char → List String
  | [], acc => [String.mk acc.reverse]
  | c :: cs, acc =>
    if c = '/' then String.mk acc.reverse :: splitSlashAux cs []
    else splitSlashAux cs (c :: acc)

/-- The hostname of a netloc, per `urllib.parse`: take the part after
the last `@`; inside `[...]` brackets keep the bracketed host,
otherwise cut at the first `:`; an empty host is `None`, a non-empty
one is lowercased (ASCII lowercasing; the source's full-Unicode
`str.lower` agrees on every ASCII host). -/
def netlocHostname (netloc : List Char) : Option String :=
  let hostinfo := (netloc.reverse.takeWhile (fun c => c ≠ '@')).reverse
  let host :=
    if hostinfo.contains '[' then
      ((hostinfo.dropWhile (fun c => c ≠ '[')).drop 1).takeWhile (fun c => c ≠ ']')
    else
      hostinfo.takeWhile (fun c => c ≠ ':')
  if host = [] then none else some (String.mk (host.map Char.toLower))

/-- `_splitparams`, applied by `urlparse` when the path contains `;`:
parameters after the first `;` of the last `/`-separated segment are
cut off (a `;` before the last `/` is left alone). -/
def splitParams (cs : List Char) : List Char :=
  if cs.contains ';' then
    if cs.contains '/' then
      let lastSeg := (cs.reverse.takeWhile (fun c => c ≠ '/')).reverse
      let pre := cs.take (cs.length - lastSeg.length)
      if lastSeg.contains ';' then pre ++ lastSeg.takeWhile (fun c => c ≠ ';')
      else cs
    else cs.takeWhile (fun c => c ≠ ';')
  else cs

/-- The hostname/path fragment of CPython's `urlparse` (3.10 line):
left-strip C0 controls and space, delete tab/CR/LF, strip a scheme,
take the netloc after `//` (raising `ValueError` on a mismatched
IPv6 bracket), cut fragment and query, and split path parameters.
Returns the parsed hostname and path. -/
def urlparseHostnamePath (url : String) : Except Unit (Option String × String) := do
  let cs := url.toList.dropWhile isC0ControlOrSpace
  let cs := cs.filter (fun c => ¬ (c = '\t' ∨ c = '\r' ∨ c = '\n'))
  let cs := dropScheme cs
  let (netloc, cs) ←
    if cs.take 2 = ['/', '/'] then
      let netloc := (cs.drop 2).takeWhile (fun c => ¬ netlocDelim c)
      if (netloc.contains '[' && !netloc.contains ']') ||
         (netloc.contains ']' && !netloc.contains '[') then
        .error ()
      else
        .ok (netloc, (cs.drop 2).dropWhile (fun c => ¬ netlocDelim c))
    else .ok ([], cs)
  let cs := cs.takeWhile (fun c => c ≠ '#')
  let cs := cs.takeWhile (fun c => c ≠ '?')
  let path := splitParams cs
  .ok (netlocHostname netloc, String.mk path)

/-- `parse_github_url` from `entry.py`: parse the url, require hostname
exactly `github.com`, and return the first two non-empty
`/`-separated path segments; every failure (including an exception
from `urlparse`, swallowed by the catch-all `except`) yields
`(None, None)`. -/
def parse_github_url (url : String) : Option String × Option String :=
  match urlparseHostnamePath url with
  | .error _ => (none, none)
  | .ok (hostname, path) =>
    if hostname ≠ some "github.com" then (none, none)
    else
      let path_parts := (splitSlashAux path.toList []).filter (fun p => p ≠ "")
      match path_parts with
      | p0 :: p1 :: _ => (some p0, some p1)
      | _ => (none, none)

/-- The kinds of exception `fetch_github_repo_data` raises from its
repository request. -/
inductive FetchExn where
  | valueError
  | ioError
deriving DecidableEq, Repr

/-- `Response.ok` of the workers runtime: status in `[200, 300)`. -/
def responseOk (status : Nat) : Bool :=
  200 ≤ status && status < 300

/-- The error dispatch of `fetch_github_repo_data` on the repository
response: `404` raises `ValueError` ("not found"), `403` raises
`IOError` ("access forbidden"), any other non-ok status raises
`IOError` ("GitHub API error"); an ok status raises nothing. -/
def fetch_github_repo_data_exn (status : Nat) : Option FetchExn :=
  if status = 404 then some .valueError
  else if status = 403 then some .ioError
  else if !responseOk status then some .ioError
  else none

/-- The response status computed by the `on_fetch` handler of
`entry.py`, as a function of the request method, the outcome of
`request.json()`, the availability of the `GITHUB_PAT_PUBLIC` token and
the status of the upstream repository request: non-POST is 405; a body
that fails to parse, is not a dict, lacks a truthy `github_url`, or
carries a url `parse_github_url` rejects is 400; a missing token is
500; then a `ValueError` from the fetch maps to 404, an `IOError`
to 502, and success to 200. -/
def on_fetch (method : String) (body : Except Unit PyVal) (hasToken : Bool)
    (upstreamStatus : Nat) : Nat :=
  if method ≠ "POST" then 405
  else
    match body with
    | .error _ => 400
    | .ok request_data =>
      if !request_data.isMap then 400
      else
        match request_data with
        | .map entries =>
          match pyLookup entries "github_url" with
          | none => 400
          | some github_url =>
            if !github_url.truthy then 400
            else
              match parse_github_url github_url.render with
              | (some _, some _) =>
                if !hasToken then 500
                else
                  match fetch_github_repo_data_exn upstreamStatus with
                  | some .valueError => 404
                  | some .ioError => 502
                  | none => 200
              | _ => 400
        | _ => 400

/-- The four failure modes the spec attributes to the enrichment
handler. -/
inductive FailureMode where
  | notFound
  | accessDenied
  | genericError
  | malformedRequest
deriving DecidableEq, Repr

/-- A well-formed request body for the enrichment handler. -/
def goodBody : PyVal :=
  .map [("github_url", .str "https://github.com/darkquasar/purplerepo")]

/-- The response status `on_fetch` produces for each failure mode:
not-found is an upstream 404, access-denied an upstream 403, a generic
upstream error an upstream 500, and a malformed request a body that
fails JSON parsing. -/
def failureStatus : FailureMode → Nat
  | .notFound => on_fetch "POST" (.ok goodBody) true 404
  | .accessDenied => on_fetch "POST" (.ok goodBody) true 403
  | .genericError => on_fetch "POST" (.ok goodBody) true 500
  | .malformedRequest => on_fetch "POST" (.error ()) true 200

/-- The hostname `urlparse` assigns to a url in the model (`none` both
for a hostless url and for a url on which `urlparse` raises). -/
def pyHostname (url : String) : Option String :=
  match urlparseHostnamePath url with
  | .error _ => none
  | .ok (hostname, _) => hostname

/-- The non-empty `/`-separated segments of the parsed path (empty when
`urlparse` raises). -/
def pyPathSegments (url : String) : List String :=
  match urlparseHostnamePath url with
  | .error _ => []
  | .ok (_, path) => (splitSlashAux path.toList []).filter (fun p => p ≠ "")

/-- The total number of consolidated add plus remove records that the
change-limit gate of `detect_changes` counts for a given pair of parsed
snapshots. -/
def consolidatedTotal (old_entries new_entries : List RepoEntry) : Nat :=
  let filtered := detect_action_conflicts (find_new_entries old_entries new_entries)
    (find_removed_entries old_entries new_entries)
  (consolidate_entries_by_url filtered.1).length +
    (consolidate_entries_by_url filtered.2).length

/-- Sixteen distinct registry entries: removing all of them in one
commit produces sixteen consolidated changes. -/
def sixteenEntries : List RepoEntry :=
  (List.range 16).map (fun i => { repo_url := toString i })

section Lemmas

/-- `dedupFirstAux` depends on `seen` only through membership. -/
theorem dedupFirstAux_congr {s₁ s₂ : List String} (h : ∀ a, a ∈ s₁ ↔ a ∈ s₂) :
    ∀ l, dedupFirstAux s₁ l = dedupFirstAux s₂ l := by
  intro l
  induction l generalizing s₁ s₂ with
  | nil => rfl
  | cons x xs ih =>
    simp only [dedupFirstAux]
    by_cases hx : x ∈ s₁
    · rw [if_pos hx, if_pos ((h x).mp hx)]
      exact ih h
    · rw [if_neg hx, if_neg (fun hc => hx ((h x).mpr hc))]
      refine congrArg _ (ih ?_)
      intro a
      simp only [List.mem_cons]
      exact or_congr Iff.rfl (h a)

/-- Membership in the deduplicated list. -/
theorem mem_dedupFirstAux {seen : List String} {l : List String} {x : String} :
    x ∈ dedupFirstAux seen l ↔ x ∈ l ∧ x ∉ seen := by
  induction l generalizing seen with
  | nil => simp [dedupFirstAux]
  | cons y ys ih =>
    simp only [dedupFirstAux]
    by_cases hy : y ∈ seen
    · rw [if_pos hy, ih]
      constructor
      · rintro ⟨hmem, hns⟩
        exact ⟨List.mem_cons_of_mem _ hmem, hns⟩
      · rintro ⟨hmem, hns⟩
        rcases List.mem_cons.mp hmem with rfl | hmem
        · exact absurd hy hns
        · exact ⟨hmem, hns⟩
    · rw [if_neg hy]
      simp only [List.mem_cons, ih, List.mem_cons]
      constructor
      · rintro (rfl | ⟨hmem, hns⟩)
        · exact ⟨Or.inl rfl, hy⟩
        · exact ⟨Or.inr hmem, fun hc => hns (Or.inr hc)⟩
      · rintro ⟨rfl | hmem, hns⟩
        · exact Or.inl rfl
        · by_cases hxy : x = y
          · exact Or.inl hxy
          · exact Or.inr ⟨hmem, fun hc => (hc.elim hxy fun hs => hns hs)⟩

/-- The deduplicated list has no duplicates. -/
theorem dedupFirstAux_nodup (seen : List String) (l : List String) :
    (dedupFirstAux seen l).Nodup := by
  induction l generalizing seen with
  | nil => simp [dedupFirstAux]
  | cons x xs ih =>
    simp only [dedupFirstAux]
    by_cases hx : x ∈ seen
    · rw [if_pos hx]; exact ih seen
    · rw [if_neg hx]
      refine List.nodup_cons.mpr ⟨?_, ih (x :: seen)⟩
      intro hc
      exact (mem_dedupFirstAux.mp hc).2 (List.mem_cons_self x seen)

/-- `dedupFirst` has no duplicates. -/
theorem dedupFirst_nodup (l : List String) : (dedupFirst l).Nodup :=
  dedupFirstAux_nodup [] l

/-- List containment of a string agrees with propositional membership. -/
theorem contains_eq_mem (l : List String) (a : String) :
    l.contains a = decide (a ∈ l) := by
  induction l with
  | nil => rfl
  | cons x xs ih =>
    simp [List.contains_cons, ih, List.mem_cons, Bool.or_comm, decide_eq_true_eq]

/-- Keys after one insertion: unchanged when the url is already a key,
otherwise the url is appended at the end. -/
theorem insertGroup_map_fst (gs : List (String × List RepoEntry)) (e : RepoEntry) :
    (insertGroup gs e).map Prod.fst =
      if e.repo_url ∈ gs.map Prod.fst then gs.map Prod.fst
      else gs.map Prod.fst ++ [e.repo_url] := by
  induction gs with
  | nil => simp [insertGroup]
  | cons p rest ih =>
    obtain ⟨u, g⟩ := p
    simp only [insertGroup]
    by_cases hu : u = e.repo_url
    · subst hu
      simp [List.mem_cons]
    · rw [if_neg hu]
      simp only [List.map_cons, List.mem_cons]
      rw [ih]
      by_cases hmem : e.repo_url ∈ rest.map Prod.fst
      · rw [if_pos hmem, if_pos (Or.inr hmem)]
      · rw [if_neg hmem, if_neg (fun hc => hc.elim (fun h => hu h.symm) hmem)]
        simp

/-- Insertion preserves the invariant that every member of a group
carries the group's key as its url. -/
theorem insertGroup_member_url (gs : List (String × List RepoEntry)) (e : RepoEntry)
    (h : ∀ p ∈ gs, ∀ x ∈ p.2, x.repo_url = p.1) :
    ∀ p ∈ insertGroup gs e, ∀ x ∈ p.2, x.repo_url = p.1 := by
  induction gs with
  | nil =>
    intro p hp x hx
    simp only [insertGroup, List.mem_singleton] at hp
    subst hp
    simp only [List.mem_singleton] at hx
    subst hx
    rfl
  | cons q rest ih =>
    obtain ⟨u, g⟩ := q
    intro p hp x hx
    simp only [insertGroup] at hp
    by_cases hu : u = e.repo_url
    · rw [if_pos hu] at hp
      rcases List.mem_cons.mp hp with rfl | hp
      · rcases List.mem_append.mp hx with hx | hx
        · exact h (u, g) (List.mem_cons_self _ _) x hx
        · simp only [List.mem_singleton] at hx
          subst hx
          exact hu.symm
      · exact h p (List.mem_cons_of_mem _ hp) x hx
    · rw [if_neg hu] at hp
      rcases List.mem_cons.mp hp with rfl | hp
      · exact h (u, g) (List.mem_cons_self _ _) x hx
      · exact ih (fun q hq => h q (List.mem_cons_of_mem _ hq)) p hp x hx

/-- Inserting an entry whose url is not yet a key appends a fresh
singleton group at the end. -/
theorem insertGroup_of_notMem {gs : List (String × List RepoEntry)} {e : RepoEntry}
    (h : e.repo_url ∉ gs.map Prod.fst) :
    insertGroup gs e = gs ++ [(e.repo_url, [e])] := by
  induction gs with
  | nil => rfl
  | cons p rest ih =>
    obtain ⟨u, g⟩ := p
    simp only [List.map_cons, List.mem_cons] at h
    push_neg at h
    obtain ⟨h1, h2⟩ := h
    have hne : ¬ u = e.repo_url := fun hc => h1 hc.symm
    simp only [insertGroup, if_neg hne]
    rw [ih h2]
    rfl

/-- Keys of the whole grouping fold: the keys already present, followed
by the first occurrences of the remaining urls. -/
theorem foldl_insertGroup_map_fst (xs : List RepoEntry)
    (gs : List (String × List RepoEntry)) :
    (xs.foldl insertGroup gs).map Prod.fst =
      gs.map Prod.fst ++ dedupFirstAux (gs.map Prod.fst) (xs.map (·.repo_url)) := by
  induction xs generalizing gs with
  | nil => simp [dedupFirstAux]
  | cons x xs ih =>
    simp only [List.foldl_cons, List.map_cons, dedupFirstAux]
    rw [ih, insertGroup_map_fst]
    by_cases hmem : x.repo_url ∈ gs.map Prod.fst
    · rw [if_pos hmem, if_pos hmem]
    · rw [if_neg hmem, if_neg hmem, List.append_assoc]
      refine congrArg _ ?_
      simp only [List.singleton_append]
      refine congrArg _ ?_
      refine dedupFirstAux_congr ?_ _
      intro a
      simp [List.mem_append, List.mem_cons, or_comm]

/-- Keys of `url_groups` are the input urls deduplicated in
first-occurrence order. -/
theorem groupByUrl_map_fst (xs : List RepoEntry) :
    (groupByUrl xs).map Prod.fst = dedupFirst (xs.map (·.repo_url)) := by
  have h := foldl_insertGroup_map_fst xs []
  simpa [groupByUrl, dedupFirst] using h

/-- Every member of a group of `url_groups` carries the group's key as
its url. -/
theorem groupByUrl_member_url (xs : List RepoEntry) :
    ∀ p ∈ groupByUrl xs, ∀ x ∈ p.2, x.repo_url = p.1 := by
  have main : ∀ (ys : List RepoEntry) (gs : List (String × List RepoEntry)),
      (∀ p ∈ gs, ∀ x ∈ p.2, x.repo_url = p.1) →
      ∀ p ∈ ys.foldl insertGroup gs, ∀ x ∈ p.2, x.repo_url = p.1 := by
    intro ys
    induction ys with
    | nil => intro gs h; simpa using h
    | cons y ys ih =>
      intro gs h
      simp only [List.foldl_cons]
      exact ih _ (insertGroup_member_url gs y h)
  exact main xs [] (by simp)

/-- The consolidated entry of a group keeps the group's key as url. -/
theorem consolidateGroup_repo_url (u : String) (g : List RepoEntry)
    (h : ∀ x ∈ g, x.repo_url = u) :
    (consolidateGroup u g).repo_url = u := by
  match g with
  | [] => rfl
  | [e] => exact h e (List.mem_singleton_self e)
  | a :: b :: t => rfl

/-- The urls of the consolidated output are the input urls deduplicated
in first-occurrence order. -/
theorem consolidate_map_url (xs : List RepoEntry) :
    (consolidate_entries_by_url xs).map (·.repo_url) = dedupFirst (xs.map (·.repo_url)) := by
  by_cases hxs : xs = []
  · subst hxs
    rfl
  · simp only [consolidate_entries_by_url, if_neg hxs, List.map_map]
    have hpt : ∀ p ∈ groupByUrl xs, (consolidateGroup p.1 p.2).repo_url = p.1 := by
      intro p hp
      exact consolidateGroup_repo_url p.1 p.2 (groupByUrl_member_url xs p hp)
    calc (groupByUrl xs).map (fun p => (consolidateGroup p.1 p.2).repo_url)
        = (groupByUrl xs).map Prod.fst := List.map_congr_left hpt
      _ = dedupFirst (xs.map (·.repo_url)) := groupByUrl_map_fst xs

/-- Folding entries with pairwise-fresh urls appends one singleton
group per entry. -/
theorem foldl_insertGroup_of_nodup (xs : List RepoEntry)
    (gs : List (String × List RepoEntry))
    (hnd : (xs.map (·.repo_url)).Nodup)
    (hdisj : ∀ e ∈ xs, e.repo_url ∉ gs.map Prod.fst) :
    xs.foldl insertGroup gs = gs ++ xs.map (fun e => (e.repo_url, [e])) := by
  induction xs generalizing gs with
  | nil => simp
  | cons x xs ih =>
    simp only [List.map_cons, List.nodup_cons] at hnd
    simp only [List.foldl_cons]
    rw [insertGroup_of_notMem (hdisj x (List.mem_cons_self _ _))]
    rw [ih _ hnd.2 ?_]
    · simp
    · intro e he
      simp only [List.map_append, List.mem_append, List.map_cons]
      push_neg
      constructor
      · exact hdisj e (List.mem_cons_of_mem _ he)
      · intro hc
        simp only [List.map_nil, List.mem_singleton] at hc
        exact hnd.1 (hc ▸ List.mem_map_of_mem (·.repo_url) he)

/-- On an input whose urls are already pairwise distinct, every group
is a singleton and consolidation is the identity. -/
theorem consolidate_of_nodup (xs : List RepoEntry)
    (hnd : (xs.map (·.repo_url)).Nodup) :
    consolidate_entries_by_url xs = xs := by
  by_cases hxs : xs = []
  · subst hxs
    rfl
  · simp only [consolidate_entries_by_url, if_neg hxs, groupByUrl]
    rw [foldl_insertGroup_of_nodup xs [] hnd (by simp)]
    simp only [List.nil_append, List.map_map]
    have : ∀ e ∈ xs, (fun p : String × List RepoEntry => consolidateGroup p.1 p.2)
        ((fun e : RepoEntry => (e.repo_url, [e])) e) = e := by
      intro e _
      rfl
    calc xs.map _ = xs.map id := List.map_congr_left this
      _ = xs := List.map_id xs

/-- Grouping a non-empty run of entries that all share one url yields a
single group holding the whole run in order. -/
theorem foldl_insertGroup_uniform (xs : List RepoEntry) (u : String)
    (acc : List RepoEntry) (h : ∀ e ∈ xs, e.repo_url = u) :
    xs.foldl insertGroup [(u, acc)] = [(u, acc ++ xs)] := by
  induction xs generalizing acc with
  | nil => simp
  | cons x xs ih =>
    simp only [List.foldl_cons]
    have hx : u = x.repo_url := (h x (List.mem_cons_self _ _)).symm
    simp only [insertGroup, if_pos hx]
    rw [ih _ (fun e he => h e (List.mem_cons_of_mem _ he))]
    simp

/-- `url_groups` for a non-empty uniform-url input is one group with
the whole input. -/
theorem groupByUrl_uniform (xs : List RepoEntry) (u : String)
    (h : ∀ e ∈ xs, e.repo_url = u) (hne : xs ≠ []) :
    groupByUrl xs = [(u, xs)] := by
  match xs with
  | [] => exact absurd rfl hne
  | x :: rest =>
    have hx : x.repo_url = u := h x (List.mem_cons_self _ _)
    simp only [groupByUrl, List.foldl_cons, insertGroup]
    rw [hx]
    rw [foldl_insertGroup_uniform rest u [x] (fun e he => h e (List.mem_cons_of_mem _ he))]
    simp

/-- Consolidating a non-empty uniform-url input yields exactly the
merge of the single group. -/
theorem consolidate_uniform (xs : List RepoEntry) (u : String)
    (h : ∀ e ∈ xs, e.repo_url = u) (hne : xs ≠ []) :
    consolidate_entries_by_url xs = [consolidateGroup u xs] := by
  simp only [consolidate_entries_by_url, if_neg hne]
  rw [groupByUrl_uniform xs u h hne]
  rfl

/-- The contributor comprehension
`[e.contributor_name for e in group if e.contributor_name]` collects,
equivalently, the non-empty strings among the mapped names. -/
theorem filter_map_contributor (g : List RepoEntry) :
    (g.filter (fun e => e.contributor_name ≠ "")).map (·.contributor_name) =
      (g.map (·.contributor_name)).filter (fun s => s ≠ "") := by
  induction g with
  | nil => rfl
  | cons e g ih =>
    simp only [ne_eq, decide_not] at ih ⊢
    by_cases he : e.contributor_name = ""
    · simp [List.filter_cons, he, ih]
    · simp [List.filter_cons, he, ih]

/-- A falsy tag field contributes no tags. -/
theorem tags_getD_of_not_truthy {o : Option (List String)} (h : tagsTruthy o = false) :
    o.getD [] = [] := by
  match o with
  | none => rfl
  | some ts =>
    simp only [tagsTruthy, decide_not, Bool.not_eq_false', decide_eq_true_eq] at h
    simpa using h

/-- The `all_tags` accumulation loop concatenates the tag lists of the
group (entries with falsy tag fields contributing nothing). -/
theorem tags_foldl_eq (g : List RepoEntry) (l0 : List String) :
    g.foldl (fun acc e => if tagsTruthy e.tags then acc ++ e.tags.getD [] else acc) l0 =
      l0 ++ (g.map (fun e => e.tags.getD [])).flatten := by
  induction g generalizing l0 with
  | nil => simp
  | cons e g ih =>
    simp only [List.foldl_cons, List.map_cons, List.flatten_cons]
    by_cases he : tagsTruthy e.tags
    · rw [if_pos he, ih, List.append_assoc]
    · rw [if_neg he, ih, tags_getD_of_not_truthy (Bool.not_eq_true _ ▸ he)]
      simp

end Lemmas

section Claims

/-- Claim C1: `find_new_entries old new` returns exactly the entries of
`new` whose `repo_url` does not occur among the urls of `old`, in
`new`'s order and without collapsing duplicate urls (a filter of `new`,
so duplicates and order are preserved), and `find_removed_entries old
new` returns exactly the entries of `old` whose url does not occur in
`new`, in `old`'s order; in particular for old urls `[A,B,C]` and new
urls `[A,B,D,E]` the added list is `[D,E]` and the removed list is
`[C]`. -/
theorem find_entries_spec :
    ∀ old_entries new_entries : List RepoEntry,
      (find_new_entries old_entries new_entries =
        new_entries.filter (fun e => decide (∀ o ∈ old_entries, o.repo_url ≠ e.repo_url))) ∧
      (find_removed_entries old_entries new_entries =
        old_entries.filter (fun e => decide (∀ o ∈ new_entries, o.repo_url ≠ e.repo_url))) ∧
      (find_new_entries [⟨"A", none, ""⟩, ⟨"B", none, ""⟩, ⟨"C", none, ""⟩]
          [⟨"A", none, ""⟩, ⟨"B", none, ""⟩, ⟨"D", none, ""⟩, ⟨"E", none, ""⟩] =
        [⟨"D", none, ""⟩, ⟨"E", none, ""⟩]) ∧
      (find_removed_entries [⟨"A", none, ""⟩, ⟨"B", none, ""⟩, ⟨"C", none, ""⟩]
          [⟨"A", none, ""⟩, ⟨"B", none, ""⟩, ⟨"D", none, ""⟩, ⟨"E", none, ""⟩] =
        [⟨"C", none, ""⟩]) := by
  have key : ∀ (l : List RepoEntry) (e : RepoEntry),
      (decide ¬((l.map (·.repo_url)).contains e.repo_url = true)) =
        decide (∀ o ∈ l, o.repo_url ≠ e.repo_url) := by
    intro l e
    refine decide_eq_decide.mpr ?_
    rw [contains_eq_mem]
    simp [List.mem_map]
  refine fun old_entries new_entries => ⟨?_, ?_, by decide, by decide⟩
  · unfold find_new_entries
    exact List.filter_congr (fun e _ => key old_entries e)
  · unfold find_removed_entries
    exact List.filter_congr (fun e _ => key new_entries e)

/-- Claim C2: `detect_action_conflicts` drops every url occurring in
both input lists from both outputs, and keeps every other entry in its
original list and relative order (each output is the filter of its
input keeping exactly the entries whose url is absent from the other
input). -/
theorem detect_action_conflicts_spec :
    ∀ new_repos removed_repos : List RepoEntry,
      ((detect_action_conflicts new_repos removed_repos).1 =
        new_repos.filter (fun e => decide (∀ o ∈ removed_repos, o.repo_url ≠ e.repo_url))) ∧
      ((detect_action_conflicts new_repos removed_repos).2 =
        removed_repos.filter (fun e => decide (∀ o ∈ new_repos, o.repo_url ≠ e.repo_url))) ∧
      (∀ u : String,
        (∃ e ∈ new_repos, e.repo_url = u) → (∃ e ∈ removed_repos, e.repo_url = u) →
        (∀ e ∈ (detect_action_conflicts new_repos removed_repos).1, e.repo_url ≠ u) ∧
        (∀ e ∈ (detect_action_conflicts new_repos removed_repos).2, e.repo_url ≠ u)) := by
  intro new_repos removed_repos
  have key : ∀ (self other : List RepoEntry), ∀ e ∈ self,
      (decide ¬(((self.map (·.repo_url)).filter
          (fun u => (other.map (·.repo_url)).contains u)).contains e.repo_url = true)) =
        decide (∀ o ∈ other, o.repo_url ≠ e.repo_url) := by
    intro self other e he
    refine decide_eq_decide.mpr ?_
    rw [contains_eq_mem]
    simp only [decide_eq_true_eq, List.mem_filter, contains_eq_mem, List.mem_map]
    constructor
    · intro h o ho hc
      exact h ⟨⟨e, he, rfl⟩, o, ho, hc⟩
    · rintro h ⟨-, o, ho, hc⟩
      exact h o ho hc
  have h1 : (detect_action_conflicts new_repos removed_repos).1 =
      new_repos.filter (fun e => decide (∀ o ∈ removed_repos, o.repo_url ≠ e.repo_url)) := by
    unfold detect_action_conflicts
    exact List.filter_congr (fun e he => key new_repos removed_repos e he)
  have h2 : (detect_action_conflicts new_repos removed_repos).2 =
      removed_repos.filter (fun e => decide (∀ o ∈ new_repos, o.repo_url ≠ e.repo_url)) := by
    unfold detect_action_conflicts
    refine List.filter_congr (fun e he => ?_)
    have hsets : (((new_repos.map (·.repo_url)).filter
          (fun u => (removed_repos.map (·.repo_url)).contains u)).contains e.repo_url) =
        (((removed_repos.map (·.repo_url)).filter
          (fun u => (new_repos.map (·.repo_url)).contains u)).contains e.repo_url) := by
      simp only [contains_eq_mem]
      refine decide_eq_decide.mpr ?_
      simp only [decide_eq_true_eq, List.mem_filter, contains_eq_mem]
      exact and_comm
    rw [hsets]
    exact key removed_repos new_repos e he
  refine ⟨h1, h2, ?_⟩
  rintro u ⟨en, hen, rfl⟩ ⟨er, her, heru⟩
  constructor
  · intro e he hc
    rw [h1] at he
    have := (List.mem_filter.mp he).2
    simp only [decide_eq_true_eq] at this
    exact this er her (heru.trans hc.symm)
  · intro e he hc
    rw [h2] at he
    have := (List.mem_filter.mp he).2
    simp only [decide_eq_true_eq] at this
    exact this en hen hc.symm

/-- Witness for C2: with url `X` in both lists, the filtered add list
keeps only `S`, and the retained entry's url differs from the
conflicting one. -/
theorem detect_action_conflicts_spec_witness :
    (detect_action_conflicts [⟨"X", none, ""⟩, ⟨"S", none, ""⟩]
        [⟨"X", none, ""⟩, ⟨"R", none, ""⟩]).1 = [⟨"S", none, ""⟩] ∧
      (⟨"S", none, ""⟩ : RepoEntry).repo_url ≠ "X" := by
  have h := detect_action_conflicts_spec [⟨"X", none, ""⟩, ⟨"S", none, ""⟩]
    [⟨"X", none, ""⟩, ⟨"R", none, ""⟩]
  constructor
  · rw [h.1]
    decide
  · refine (h.2.2 "X" ⟨⟨"X", none, ""⟩, by decide, rfl⟩
      ⟨⟨"X", none, ""⟩, by decide, rfl⟩).1 ⟨"S", none, ""⟩ ?_
    rw [h.1]
    decide

/-- Claim C8: `consolidate_entries_by_url` outputs exactly one entry
per unique input url — the output urls are the input urls deduplicated
in first-occurrence order, hence pairwise distinct and covering exactly
the input urls.  Determinism across runs is inherent: the embedding is
a pure function of its input. -/
theorem consolidate_unique_urls_spec :
    ∀ xs : List RepoEntry,
      ((consolidate_entries_by_url xs).map (·.repo_url) =
        dedupFirst (xs.map (·.repo_url))) ∧
      ((consolidate_entries_by_url xs).map (·.repo_url)).Nodup ∧
      (∀ u : String, u ∈ (consolidate_entries_by_url xs).map (·.repo_url) ↔
        u ∈ xs.map (·.repo_url)) := by
  intro xs
  refine ⟨consolidate_map_url xs, ?_, ?_⟩
  · rw [consolidate_map_url]
    exact dedupFirst_nodup _
  · intro u
    rw [consolidate_map_url]
    unfold dedupFirst
    rw [mem_dedupFirstAux]
    simp

/-- Claim C9: consolidation is idempotent — consolidating twice equals
consolidating once, and on a list whose urls are already pairwise
distinct it is the identity. -/
theorem consolidate_idempotent_spec :
    ∀ xs : List RepoEntry,
      (consolidate_entries_by_url (consolidate_entries_by_url xs) =
        consolidate_entries_by_url xs) ∧
      ((xs.map (·.repo_url)).Nodup → consolidate_entries_by_url xs = xs) := by
  intro xs
  constructor
  · refine consolidate_of_nodup _ ?_
    rw [consolidate_map_url]
    exact dedupFirst_nodup _
  · exact consolidate_of_nodup xs

/-- Witness for C9 at a concrete already-consolidated input. -/
theorem consolidate_idempotent_spec_witness :
    consolidate_entries_by_url [⟨"A", none, ""⟩, ⟨"B", some ["t"], "c"⟩] =
      [⟨"A", none, ""⟩, ⟨"B", some ["t"], "c"⟩] :=
  (consolidate_idempotent_spec [⟨"A", none, ""⟩, ⟨"B", some ["t"], "c"⟩]).2 (by decide)

end Claims

section ClaimsMerge

/-- Closed form of the merge branch of `consolidateGroup` on a group of
at least two entries. -/
theorem consolidateGroup_eq_cons₂ (u : String) (a b : RepoEntry) (t : List RepoEntry) :
    consolidateGroup u (a :: b :: t) =
      { repo_url := u,
        tags := (if ((a :: b :: t).map (fun e => e.tags.getD [])).flatten = [] then none
                 else some (dedupFirst (((a :: b :: t).map (fun e => e.tags.getD [])).flatten))),
        contributor_name := String.intercalate ", "
          (dedupFirst (((a :: b :: t).map (·.contributor_name)).filter (fun s => s ≠ ""))) } := by
  have hfold := tags_foldl_eq (a :: b :: t) []
  rw [List.nil_append] at hfold
  simp only [consolidateGroup]
  rw [filter_map_contributor, hfold]

/-- Claim C6: for a group of two or more entries sharing one url,
consolidation sets the contributor to the non-empty contributor strings
in first-occurrence order, exact duplicates removed, joined by
`", "`. -/
theorem consolidate_contributors_spec :
    ∀ (xs : List RepoEntry) (u : String),
      (∀ e ∈ xs, e.repo_url = u) → 2 ≤ xs.length →
      (consolidate_entries_by_url xs).map (·.contributor_name) =
        [String.intercalate ", "
          (dedupFirst ((xs.map (·.contributor_name)).filter (fun s => s ≠ "")))] := by
  intro xs u h hlen
  match xs with
  | [] => exact absurd hlen (by decide)
  | [a] => exact absurd hlen (by simp)
  | a :: b :: t =>
    rw [consolidate_uniform (a :: b :: t) u h (by simp)]
    simp [consolidateGroup_eq_cons₂]

/-- Witness for C6: contributors `["a", "", "b", "a"]` under one url
consolidate to the string `"a, b"`. -/
theorem consolidate_contributors_spec_witness :
    (consolidate_entries_by_url
        [⟨"u", none, "a"⟩, ⟨"u", none, ""⟩, ⟨"u", none, "b"⟩, ⟨"u", none, "a"⟩]).map
      (·.contributor_name) = ["a, b"] := by
  have h := consolidate_contributors_spec
    [⟨"u", none, "a"⟩, ⟨"u", none, ""⟩, ⟨"u", none, "b"⟩, ⟨"u", none, "a"⟩] "u"
    (by decide) (by decide)
  rw [h]
  decide

/-- Claim C7: for a group of two or more entries sharing one url,
consolidation sets the tags to the concatenation of the groups' tag
lists deduplicated in first-occurrence order, and to `None` exactly
when no entry of the group carries any tag. -/
theorem consolidate_tags_spec :
    ∀ (xs : List RepoEntry) (u : String),
      (∀ e ∈ xs, e.repo_url = u) → 2 ≤ xs.length →
      (consolidate_entries_by_url xs).map (·.tags) =
        [if (xs.map (fun e => e.tags.getD [])).flatten = [] then none
         else some (dedupFirst ((xs.map (fun e => e.tags.getD [])).flatten))] := by
  intro xs u h hlen
  match xs with
  | [] => exact absurd hlen (by decide)
  | [a] => exact absurd hlen (by simp)
  | a :: b :: t =>
    rw [consolidate_uniform (a :: b :: t) u h (by simp)]
    simp [consolidateGroup_eq_cons₂]

/-- Witness for C7: tag lists `["x","y"]` and `["y","z"]` under one url
consolidate to `["x","y","z"]`. -/
theorem consolidate_tags_spec_witness :
    (consolidate_entries_by_url
        [⟨"u", some ["x", "y"], ""⟩, ⟨"u", some ["y", "z"], ""⟩]).map (·.tags) =
      [some ["x", "y", "z"]] := by
  have h := consolidate_tags_spec
    [⟨"u", some ["x", "y"], ""⟩, ⟨"u", some ["y", "z"], ""⟩] "u" (by decide) (by decide)
  rw [h]
  decide

end ClaimsMerge

section ClaimsRest

/-- Claim C3: with the limit enforced, a consolidated change count
above the threshold 15 makes `detect_changes` fail with the
limit-exceeded error carrying the actual count and the threshold, and
no change records are emitted (the error branch carries no payloads);
with the count at most 15 no such failure occurs. -/
theorem detect_changes_limit_spec :
    ∀ old_entries new_entries : List RepoEntry,
      (15 < consolidatedTotal old_entries new_entries →
        detect_changes_core old_entries new_entries true =
          .error { total_changes := consolidatedTotal old_entries new_entries,
                   threshold := 15 }) ∧
      (consolidatedTotal old_entries new_entries ≤ 15 →
        ∀ err, detect_changes_core old_entries new_entries true ≠ .error err) := by
  intro old_entries new_entries
  by_cases h0 : find_new_entries old_entries new_entries = [] ∧
      find_removed_entries old_entries new_entries = []
  · have htot : consolidatedTotal old_entries new_entries = 0 := by
      simp [consolidatedTotal, h0.1, h0.2, detect_action_conflicts,
        consolidate_entries_by_url]
    constructor
    · intro hgt
      omega
    · intro _ err
      simp [detect_changes_core, h0]
  · by_cases h1 : consolidate_entries_by_url
        (detect_action_conflicts (find_new_entries old_entries new_entries)
          (find_removed_entries old_entries new_entries)).1 = [] ∧
      consolidate_entries_by_url
        (detect_action_conflicts (find_new_entries old_entries new_entries)
          (find_removed_entries old_entries new_entries)).2 = []
    · have htot : consolidatedTotal old_entries new_entries = 0 := by
        simp [consolidatedTotal, h1.1, h1.2]
      constructor
      · intro hgt
        omega
      · intro _ err
        simp [detect_changes_core, h0, h1.1, h1.2]
    · constructor
      · intro hgt
        simp only [consolidatedTotal] at hgt
        simp [detect_changes_core, h0, h1, consolidatedTotal]
        omega
      · intro hle err
        have hnot : ¬ (15 < consolidatedTotal old_entries new_entries) := by omega
        simp only [consolidatedTotal] at hnot
        simp [detect_changes_core, h0, h1, hnot]

/-- Witness for C3: removing sixteen entries at once under the enforced
limit fails with count 16 against threshold 15 and yields no payloads,
while a single added entry raises no limit error. -/
theorem detect_changes_limit_spec_witness :
    (detect_changes_core sixteenEntries [] true =
      .error { total_changes := 16, threshold := 15 }) ∧
    (detect_changes_core [] [⟨"a", none, ""⟩] true ≠
      .error { total_changes := 16, threshold := 15 }) := by
  constructor
  · have h := (detect_changes_limit_spec sixteenEntries []).1 (by decide)
    have ht : consolidatedTotal sixteenEntries [] = 16 := by decide
    rw [ht] at h
    exact h
  · exact (detect_changes_limit_spec [] [⟨"a", none, ""⟩]).2 (by decide)
      { total_changes := 16, threshold := 15 }

/-- Counterexample to C4: the empty document is a string that cannot be
parsed as the expected structure — `yaml.safe_load` accepts it and
returns `None` — yet `parse_yaml_content` then raises an uncaught
`AttributeError` from `data.get('repos', [])` instead of returning the
empty list. -/
theorem parse_yaml_content_raises_counterexample :
    parse_yaml_content (.ok .null) = .error .attributeError := rfl

/-- Claim C4 (amended): `parse_yaml_content` returns the empty list,
without raising, exactly for the inputs whose YAML parsing itself fails
with `yaml.YAMLError` (the only exception the function catches); an
input that is well-formed YAML whose top level is not a mapping instead
raises an uncaught `AttributeError` from `data.get`. -/
theorem parse_yaml_content_malformed_spec :
    ∀ loaded : Except Unit PyVal,
      (∀ err, loaded = .error err → parse_yaml_content loaded = .ok []) ∧
      (∀ v, loaded = .ok v → v.isMap = false →
        parse_yaml_content loaded = .error .attributeError) := by
  intro loaded
  constructor
  · rintro err rfl
    rfl
  · rintro v rfl hv
    match v, hv with
    | .null, _ => rfl
    | .bool b, _ => rfl
    | .int n, _ => rfl
    | .str s, _ => rfl
    | .list items, _ => rfl

/-- Witness for the amended C4: a tokenizer-level YAML failure is
recovered as the empty entry list, and a well-formed non-mapping
document (a bare list) raises. -/
theorem parse_yaml_content_malformed_spec_witness :
    parse_yaml_content (.error ()) = .ok [] ∧
      parse_yaml_content (.ok (.list [.str "x"])) = .error .attributeError :=
  ⟨(parse_yaml_content_malformed_spec (.error ())).1 () rfl,
   (parse_yaml_content_malformed_spec (.ok (.list [.str "x"]))).2 (.list [.str "x"]) rfl rfl⟩

/-- Counterexample to C5: upstream-access-denied (a 403 from the GitHub
API) and upstream-generic-error (any other non-ok upstream status) are
distinct failure modes, yet `on_fetch` answers 502 for both — both are
raised as `IOError` by `fetch_github_repo_data` and funnelled through
the single `IOError` handler. -/
theorem enrich_status_collision_counterexample :
    FailureMode.accessDenied ≠ FailureMode.genericError ∧
      failureStatus .accessDenied = failureStatus .genericError :=
  ⟨by decide, rfl⟩

/-- Claim C5 (amended): `on_fetch` maps not-found to 404,
malformed-request to 400, and both upstream failure modes
(access-denied and generic upstream error) to the same 502 — three
distinct statuses across the four failure modes, with only the two
upstream modes sharing one. -/
theorem enrich_status_spec :
    failureStatus .notFound = 404 ∧ failureStatus .malformedRequest = 400 ∧
      failureStatus .accessDenied = 502 ∧ failureStatus .genericError = 502 :=
  ⟨by decide, by decide, by decide, by decide⟩

/-- Claim C10: `parse_github_url` is total — in the source the
catch-all `except` absorbs even the `ValueError` that `urlparse` can
raise, and the embedding is a total function — returning `(None, None)`
whenever the parsed hostname is not exactly `github.com` or the parsed
path has fewer than two non-empty `/`-separated segments, and otherwise
the first two such segments as `(owner, repo)`. -/
theorem parse_github_url_spec :
    ∀ url : String,
      (pyHostname url ≠ some "github.com" → parse_github_url url = (none, none)) ∧
      ((pyPathSegments url).length < 2 → parse_github_url url = (none, none)) ∧
      (∀ owner repo rest, pyHostname url = some "github.com" →
        pyPathSegments url = owner :: repo :: rest →
        parse_github_url url = (some owner, some repo)) := by
  intro url
  cases hu : urlparseHostnamePath url with
  | error e =>
    have hp : parse_github_url url = (none, none) := by
      unfold parse_github_url
      rw [hu]
    have hs : pyPathSegments url = [] := by
      unfold pyPathSegments
      rw [hu]
    refine ⟨fun _ => hp, fun _ => hp, fun owner repo rest _ hseg => ?_⟩
    rw [hs] at hseg
    cases hseg
  | ok pr =>
    obtain ⟨hostname, path⟩ := pr
    have hh : pyHostname url = hostname := by
      unfold pyHostname
      rw [hu]
    have hs : pyPathSegments url = (splitSlashAux path.toList []).filter (fun p => p ≠ "") := by
      unfold pyPathSegments
      rw [hu]
    by_cases hgh : hostname = some "github.com"
    · have hp : parse_github_url url =
          (match (splitSlashAux path.toList []).filter (fun p => p ≠ "") with
           | p0 :: p1 :: _ => (some p0, some p1)
           | _ => (none, none)) := by
        unfold parse_github_url
        rw [hu]
        dsimp only
        rw [if_neg (fun hc => hc hgh)]
      rcases hfil : (splitSlashAux path.toList []).filter (fun p => p ≠ "") with
        - | ⟨p0, tl⟩
      · rw [hfil] at hp
        refine ⟨fun hne => absurd (hh.trans hgh) hne, fun _ => hp,
          fun owner repo rest _ hseg => ?_⟩
        rw [hs, hfil] at hseg
        cases hseg
      · rcases tl with - | ⟨p1, t⟩
        · rw [hfil] at hp
          refine ⟨fun hne => absurd (hh.trans hgh) hne, fun _ => hp,
            fun owner repo rest _ hseg => ?_⟩
          rw [hs, hfil] at hseg
          cases hseg
        · rw [hfil] at hp
          refine ⟨fun hne => absurd (hh.trans hgh) hne, fun hlen => ?_,
            fun owner repo rest _ hseg => ?_⟩
          · rw [hs, hfil] at hlen
            simp at hlen
            omega
          · rw [hs, hfil] at hseg
            injection hseg with h1 h2
            injection h2 with h2 h3
            rw [hp, h1, h2]
    · have hp : parse_github_url url = (none, none) := by
        unfold parse_github_url
        rw [hu]
        dsimp only
        rw [if_pos hgh]
      refine ⟨fun _ => hp, fun _ => hp, fun owner repo rest hhost _ => ?_⟩
      rw [hh] at hhost
      exact absurd hhost hgh

/-- Witness for C10 at the repository's own url. -/
theorem parse_github_url_spec_witness :
    parse_github_url "https://github.com/darkquasar/purplerepo" =
      (some "darkquasar", some "purplerepo") :=
  (parse_github_url_spec "https://github.com/darkquasar/purplerepo").2.2
    "darkquasar" "purplerepo" [] (by decide) (by decide)

end ClaimsRest

end PurpleRepo
